import Mathlib

/-!
Verification of the geometric mapping subsystem of dune-common's ALU3d grid
layer (`src/grid/alu3dgrid/mappings.hh`): `TrilinearMapping`,
`BilinearSurfaceMapping` and the two `NonConformingFaceMapping`
specializations.  Real numbers (C++ `double`) are embedded as exact rationals
`ℚ`; three-dimensional coordinates (`FieldVector<double,3>`) as `Vec3`,
two-dimensional ones as `Vec2`, and `FieldMatrix<double,3,3>` as `Mat3` given
by rows.  The header declares the class interfaces and their const
qualifiers; the member-function bodies live in `mappings_imp.cc`, which is
not part of the snapshot, so function bodies below are modelled from the
specification text and marked as such.
-/

/-- A 3-vector of rationals, embedding `FieldVector<double,3>`. -/
structure Vec3 where
  x : ℚ
  y : ℚ
  z : ℚ
deriving DecidableEq, Repr

/-- A 2-vector of rationals, embedding `FieldVector<double,2>`. -/
structure Vec2 where
  x : ℚ
  y : ℚ
deriving DecidableEq, Repr

instance : Add Vec3 where
  add a b := ⟨a.x + b.x, a.y + b.y, a.z + b.z⟩

instance : Sub Vec3 where
  sub a b := ⟨a.x - b.x, a.y - b.y, a.z - b.z⟩

instance : SMul ℚ Vec3 where
  smul c a := ⟨c * a.x, c * a.y, c * a.z⟩

instance : Zero Vec3 where
  zero := ⟨0, 0, 0⟩

/-- Euclidean dot product on `Vec3`. -/
def Vec3.dot (a b : Vec3) : ℚ := a.x * b.x + a.y * b.y + a.z * b.z

/-- Cross product on `Vec3`. -/
def Vec3.cross (a b : Vec3) : Vec3 :=
  ⟨a.y * b.z - a.z * b.y, a.z * b.x - a.x * b.z, a.x * b.y - a.y * b.x⟩

/-- Squared Euclidean norm on `Vec3` (kept squared to stay inside `ℚ`). -/
def Vec3.sqNorm (a : Vec3) : ℚ := a.x * a.x + a.y * a.y + a.z * a.z

/-- A 3×3 rational matrix given by rows, embedding `FieldMatrix<double,3,3>`. -/
structure Mat3 where
  r0 : Vec3
  r1 : Vec3
  r2 : Vec3
deriving DecidableEq, Repr

/-- Matrix–vector product for the row representation. -/
def Mat3.mulVec (m : Mat3) (v : Vec3) : Vec3 :=
  ⟨m.r0.dot v, m.r1.dot v, m.r2.dot v⟩

/-- Determinant of a 3×3 matrix by cofactor expansion along the first row. -/
def Mat3.det3 (m : Mat3) : ℚ :=
  m.r0.x * (m.r1.y * m.r2.z - m.r1.z * m.r2.y)
    - m.r0.y * (m.r1.x * m.r2.z - m.r1.z * m.r2.x)
    + m.r0.z * (m.r1.x * m.r2.y - m.r1.y * m.r2.x)

/-- Explicit cofactor (adjugate-over-determinant) inverse of a 3×3 matrix,
the classical closed formula used for `Dfi` in the mapping code; `d` is the
determinant value the caller divides by. -/
def Mat3.cofactorInverse (m : Mat3) (d : ℚ) : Mat3 :=
  ⟨⟨(m.r1.y * m.r2.z - m.r1.z * m.r2.y) / d,
    (m.r0.z * m.r2.y - m.r0.y * m.r2.z) / d,
    (m.r0.y * m.r1.z - m.r0.z * m.r1.y) / d⟩,
   ⟨(m.r1.z * m.r2.x - m.r1.x * m.r2.z) / d,
    (m.r0.x * m.r2.z - m.r0.z * m.r2.x) / d,
    (m.r0.z * m.r1.x - m.r0.x * m.r1.z) / d⟩,
   ⟨(m.r1.x * m.r2.y - m.r1.y * m.r2.x) / d,
    (m.r0.y * m.r2.x - m.r0.x * m.r2.y) / d,
    (m.r0.x * m.r1.y - m.r0.y * m.r1.x) / d⟩⟩

/-- Membership in the closed reference unit cube `[0,1]³`. -/
def inUnitCube (p : Vec3) : Prop :=
  0 ≤ p.x ∧ p.x ≤ 1 ∧ 0 ≤ p.y ∧ p.y ≤ 1 ∧ 0 ≤ p.z ∧ p.z ≤ 1

/-- Membership in the open interior of the reference unit cube. -/
def inUnitCubeInterior (p : Vec3) : Prop :=
  0 < p.x ∧ p.x < 1 ∧ 0 < p.y ∧ p.y < 1 ∧ 0 < p.z ∧ p.z < 1

/-- Modelled from the spec: `TrilinearMapping` after construction.  The
implementation file `mappings_imp.cc` is absent from the snapshot; §3 and §4.1
of the spec say construction derives, once, the 8 coefficient vectors
`a[8][3]` of the multilinear basis expansion from the 8 corner points, and
that these are immutable afterwards.  We represent the post-construction
coefficient state. -/
structure TrilinearMapping where
  a0 : Vec3
  a1 : Vec3
  a2 : Vec3
  a3 : Vec3
  a4 : Vec3
  a5 : Vec3
  a6 : Vec3
  a7 : Vec3
deriving DecidableEq, Repr

/-- Modelled from the spec: the constructor
`TrilinearMapping(p0,...,p7)` (missing `mappings_imp.cc` body).  It computes
the 8 basis coefficients of the standard trilinear interpolation polynomial
on the Dune reference hexahedron, whose corner `i` has reference coordinates
`(i mod 2, (i/2) mod 2, i/4)`, so that
`map2world(ξ) = a0 + a1 ξx + a2 ξy + a3 ξz + a4 ξx ξy + a5 ξx ξz + a6 ξy ξz + a7 ξx ξy ξz`
interpolates the corners. -/
def TrilinearMapping.ofCorners (p0 p1 p2 p3 p4 p5 p6 p7 : Vec3) :
    TrilinearMapping :=
  ⟨p0,
   p1 - p0,
   p2 - p0,
   p4 - p0,
   p3 - p2 - p1 + p0,
   p5 - p4 - p1 + p0,
   p6 - p4 - p2 + p0,
   p7 - p6 - p5 + p4 - p3 + p2 + p1 - p0⟩

/-- Modelled from the spec: `TrilinearMapping::map2world(ξ)` (missing
`mappings_imp.cc` body) — "evaluates the trilinear polynomial at reference
coordinate ξ∈[0,1]³; pure, no cache mutation" (§4.1). -/
def TrilinearMapping.map2world (t : TrilinearMapping) (ξ : Vec3) : Vec3 :=
  t.a0 + ξ.x • t.a1 + ξ.y • t.a2 + ξ.z • t.a3
    + (ξ.x * ξ.y) • t.a4 + (ξ.x * ξ.z) • t.a5 + (ξ.y * ξ.z) • t.a6
    + (ξ.x * ξ.y * ξ.z) • t.a7

/-- Partial derivative of `map2world` with respect to the first reference
coordinate (a column of the Jacobian `Df`). -/
def TrilinearMapping.dfx (t : TrilinearMapping) (ξ : Vec3) : Vec3 :=
  t.a1 + ξ.y • t.a4 + ξ.z • t.a5 + (ξ.y * ξ.z) • t.a7

/-- Partial derivative of `map2world` with respect to the second reference
coordinate. -/
def TrilinearMapping.dfy (t : TrilinearMapping) (ξ : Vec3) : Vec3 :=
  t.a2 + ξ.x • t.a4 + ξ.z • t.a6 + (ξ.x * ξ.z) • t.a7

/-- Partial derivative of `map2world` with respect to the third reference
coordinate. -/
def TrilinearMapping.dfz (t : TrilinearMapping) (ξ : Vec3) : Vec3 :=
  t.a3 + ξ.x • t.a5 + ξ.y • t.a6 + (ξ.x * ξ.y) • t.a7

/-- Modelled from the spec: the Jacobian `Df` of the trilinear map at ξ
(§4.1 "differentiates the trilinear polynomial to produce a 3×3 matrix at a
given ξ").  Row `i` holds the gradient of world component `i`. -/
def TrilinearMapping.jacobian (t : TrilinearMapping) (ξ : Vec3) : Mat3 :=
  ⟨⟨(t.dfx ξ).x, (t.dfy ξ).x, (t.dfz ξ).x⟩,
   ⟨(t.dfx ξ).y, (t.dfy ξ).y, (t.dfz ξ).y⟩,
   ⟨(t.dfx ξ).z, (t.dfy ξ).z, (t.dfz ξ).z⟩⟩

/-- Modelled from the spec: `TrilinearMapping::det(ξ)` (missing
`mappings_imp.cc` body) — "returns the Jacobian determinant at ξ" (§4.1). -/
def TrilinearMapping.det (t : TrilinearMapping) (ξ : Vec3) : ℚ :=
  (t.jacobian ξ).det3

/-- Modelled from the spec: the fixed small threshold
`TrilinearMapping::_epsilon` below which a determinant magnitude counts as
near-singular (§4.1); the concrete value is implementation-chosen, here
`10⁻⁸`. -/
def trilinearEpsilon : ℚ := 1 / 100000000

/-- Error outcomes of the mapping queries (§7): a near-singular Jacobian is a
domain error, and Newton non-convergence is reported after the iteration
cap. -/
inductive MappingError where
  | singularJacobian : MappingError
  | nonConvergence : MappingError
deriving DecidableEq, Repr

/-- Modelled from the spec: `TrilinearMapping::jacobianInverse(ξ)` (missing
`mappings_imp.cc` body) — "explicit 3×3 inversion of the Jacobian using
cofactors; treats a determinant magnitude below a fixed small threshold as a
domain error (near-singular mapping) rather than dividing by near-zero"
(§4.1). -/
def TrilinearMapping.jacobianInverse (t : TrilinearMapping) (ξ : Vec3) :
    Except MappingError Mat3 :=
  let d := t.det ξ
  if |d| < trilinearEpsilon then .error .singularJacobian
  else .ok ((t.jacobian ξ).cofactorInverse d)

/-- Modelled from the spec: one Newton update
`ξ ↦ ξ − J⁻¹(ξ)·(map2world(ξ) − x)` of `world2map` (§4.1), propagating the
near-singular domain error of `jacobianInverse`. -/
def TrilinearMapping.newtonStep (t : TrilinearMapping) (x ξ : Vec3) :
    Except MappingError Vec3 :=
  match t.jacobianInverse ξ with
  | .error e => .error e
  | .ok m => .ok (ξ - m.mulVec (t.map2world ξ - x))

/-- Modelled from the spec: the convergence threshold of the Newton residual
norm; the residual test is expressed on squared norms so it stays inside
exact rational arithmetic.  The implementation-chosen value is tied to
`_epsilon`. -/
def newtonTolerance : ℚ := trilinearEpsilon

/-- Modelled from the spec: the implementation-chosen Newton iteration cap,
"recommended 20–50" (§5); here 20. -/
def newtonCap : Nat := 20

/-- Modelled from the spec: the Newton loop of `world2map` (§4.1, §5) — an
update followed by the residual test, repeated until the residual norm falls
below the threshold or the fuel (cap) runs out, which is reported as
non-convergence. -/
def TrilinearMapping.newtonLoop (t : TrilinearMapping) (x : Vec3) :
    Nat → Vec3 → Except MappingError Vec3
  | 0, _ => .error .nonConvergence
  | k + 1, ξ =>
    match t.newtonStep x ξ with
    | .error e => .error e
    | .ok ξ' =>
      if (t.map2world ξ' - x).sqNorm < newtonTolerance * newtonTolerance then
        .ok ξ'
      else
        t.newtonLoop x k ξ'

/-- Modelled from the spec: `TrilinearMapping::world2map(x)` (missing
`mappings_imp.cc` body) — "inverts the nonlinear forward map by Newton
iteration, ξ_{k+1} = ξ_k − J⁻¹(ξ_k)·(map2world(ξ_k) − x), seeded at the
reference-domain centroid (0.5,0.5,0.5); terminates on residual norm below
the threshold or on exceeding a bounded iteration count, the latter reported
as non-convergence" (§4.1). -/
def TrilinearMapping.world2map (t : TrilinearMapping) (x : Vec3) :
    Except MappingError Vec3 :=
  t.newtonLoop x newtonCap ⟨1/2, 1/2, 1/2⟩

/-- A corner set is non-degenerate when the mapping is locally invertible on
the reference domain's interior (§3): the Jacobian determinant does not
vanish there. -/
def TrilinearMapping.nonDegenerate (t : TrilinearMapping) : Prop :=
  ∀ ξ, inUnitCubeInterior ξ → t.det ξ ≠ 0

/-- A hexahedron is properly oriented (non-inverted) when the Jacobian
determinant is positive throughout the reference cube (§4.1: "positive for
correctly oriented, non-inverted cells; negative indicates inverted
orientation"). -/
def TrilinearMapping.properlyOriented (t : TrilinearMapping) : Prop :=
  ∀ ξ, inUnitCube ξ → 0 < t.det ξ

/-- An affine corner set (a parallelepiped): all genuinely multilinear
coefficients vanish, so the map is `ξ ↦ a0 + A ξ` with constant Jacobian. -/
def TrilinearMapping.isAffine (t : TrilinearMapping) : Prop :=
  t.a4 = 0 ∧ t.a5 = 0 ∧ t.a6 = 0 ∧ t.a7 = 0

/-- The constant Jacobian matrix of an affine trilinear map, built from the
three linear coefficient vectors. -/
def TrilinearMapping.affineMatrix (t : TrilinearMapping) : Mat3 :=
  ⟨⟨t.a1.x, t.a2.x, t.a3.x⟩,
   ⟨t.a1.y, t.a2.y, t.a3.y⟩,
   ⟨t.a1.z, t.a2.z, t.a3.z⟩⟩

/-- The trilinear mapping on the 8 corners of the unit cube in the standard
Dune ordering. -/
def unitCubeMap : TrilinearMapping :=
  TrilinearMapping.ofCorners ⟨0,0,0⟩ ⟨1,0,0⟩ ⟨0,1,0⟩ ⟨1,1,0⟩
    ⟨0,0,1⟩ ⟨1,0,1⟩ ⟨0,1,1⟩ ⟨1,1,1⟩

/-- The unit-cube corner set with the orientation-inverting corner
permutation applied (mirror swap within each edge parallel to the first
axis). -/
def mirroredUnitCubeMap : TrilinearMapping :=
  TrilinearMapping.ofCorners ⟨1,0,0⟩ ⟨0,0,0⟩ ⟨1,1,0⟩ ⟨0,1,0⟩
    ⟨1,0,1⟩ ⟨0,0,1⟩ ⟨1,1,1⟩ ⟨0,1,1⟩

/-- A geometrically shrunken but combinatorially perfect cube: corners of an
axis-aligned cube of side `10⁻³`.  Its Jacobian determinant is the constant
`10⁻⁹`, nonzero (hence non-degenerate) yet below the near-singular threshold
`trilinearEpsilon = 10⁻⁸`. -/
def tinyCubeMap : TrilinearMapping :=
  TrilinearMapping.ofCorners ⟨0,0,0⟩ ⟨1/1000,0,0⟩ ⟨0,1/1000,0⟩ ⟨1/1000,1/1000,0⟩
    ⟨0,0,1/1000⟩ ⟨1/1000,0,1/1000⟩ ⟨0,1/1000,1/1000⟩ ⟨1/1000,1/1000,1/1000⟩

/-- Modelled from the spec: `BilinearSurfaceMapping` after construction
(missing `mappings_imp.cc` body).  §4.2: construction "computes 4 bilinear
coefficients and 3 precomputed rows capturing how the (un-normalized) surface
normal varies linearly in each of the two surface parameters", matching the
member arrays `_b[4][3]` and `_n[3][3]` declared in the header. -/
structure BilinearSurfaceMapping where
  b0 : Vec3
  b1 : Vec3
  b2 : Vec3
  b3 : Vec3
  n0 : Vec3
  n1 : Vec3
  n2 : Vec3
deriving DecidableEq, Repr

/-- Modelled from the spec: the constructor
`BilinearSurfaceMapping(p0,p1,p2,p3)` (missing `mappings_imp.cc` body).  The
bilinear coefficients expand `map2world(η) = b0 + b1 ηx + b2 ηy + b3 ηx ηy`
through the quadrilateral's corners in Dune ordering, and the normal rows are
the coefficients of the affine expansion of the tangent cross product. -/
def BilinearSurfaceMapping.ofCorners (p0 p1 p2 p3 : Vec3) :
    BilinearSurfaceMapping :=
  ⟨p0, p1 - p0, p2 - p0, p3 - p2 - p1 + p0,
   (p1 - p0).cross (p2 - p0),
   (p1 - p0).cross (p3 - p2 - p1 + p0),
   (p3 - p2 - p1 + p0).cross (p2 - p0)⟩

/-- Modelled from the spec: `BilinearSurfaceMapping::map2world(η)` (missing
`mappings_imp.cc` body) — "bilinear interpolation at η∈[0,1]²" (§4.2). -/
def BilinearSurfaceMapping.map2world (s : BilinearSurfaceMapping) (η : Vec2) :
    Vec3 :=
  s.b0 + η.x • s.b1 + η.y • s.b2 + (η.x * η.y) • s.b3

/-- Tangent (partial-derivative) vector of `map2world` in the first surface
parameter; because the patch is affine in each parameter separately, it is
characterized exactly by `map2world(ηx+h, ηy) = map2world(η) + h • tangentX η`. -/
def BilinearSurfaceMapping.tangentX (s : BilinearSurfaceMapping) (η : Vec2) :
    Vec3 :=
  s.b1 + η.y • s.b3

/-- Tangent (partial-derivative) vector of `map2world` in the second surface
parameter. -/
def BilinearSurfaceMapping.tangentY (s : BilinearSurfaceMapping) (η : Vec2) :
    Vec3 :=
  s.b2 + η.x • s.b3

/-- Modelled from the spec: `BilinearSurfaceMapping::normal(η)` (missing
`mappings_imp.cc` body) — "evaluates the un-normalized normal via the cached
rows; caller is responsible for normalizing to unit length if required"
(§4.2). -/
def BilinearSurfaceMapping.normal (s : BilinearSurfaceMapping) (η : Vec2) :
    Vec3 :=
  s.n0 + η.x • s.n1 + η.y • s.n2

/-- The doubled unit square in the plane, a surface patch whose normal has
length 4 everywhere — witnessing that `normal` is not normalized. -/
def doubledSquarePatch : BilinearSurfaceMapping :=
  BilinearSurfaceMapping.ofCorners ⟨0,0,0⟩ ⟨2,0,0⟩ ⟨0,2,0⟩ ⟨2,2,0⟩

/-- Refinement rules of triangular faces, embedding
`ALU3DSPACE Hface3RuleType`: no split, one bisection per edge, or the
isotropic 4-way split (§4.3). -/
inductive Hface3Rule where
  | nosplit : Hface3Rule
  | e01 : Hface3Rule
  | e12 : Hface3Rule
  | e20 : Hface3Rule
  | iso4 : Hface3Rule
deriving DecidableEq, Repr

/-- Refinement rules of quadrilateral faces, embedding
`ALU3DSPACE Hface4RuleType`: no split or the isotropic 4-way split (§4.3). -/
inductive Hface4Rule where
  | nosplit : Hface4Rule
  | iso4 : Hface4Rule
deriving DecidableEq, Repr

/-- Embedding of `NonConformingFaceMapping<tetra>`: a fixed refinement rule
and child index, stored at construction and never mutated.  Local coordinates
on a triangular face are barycentric triples (`FieldVector<alu3d_ctype,3>` in
the header). -/
structure NonConformingFaceMappingTetra where
  rule : Hface3Rule
  nChild : Nat
deriving DecidableEq, Repr

/-- Embedding of `NonConformingFaceMapping<hexa>`: a fixed refinement rule
and child index; local coordinates on a quadrilateral face are points of the
reference square (`FieldVector<alu3d_ctype,2>`). -/
structure NonConformingFaceMappingHexa where
  rule : Hface4Rule
  nChild : Nat
deriving DecidableEq, Repr

/-- The reference triangle of a triangular face in barycentric coordinates:
nonnegative entries summing to one. -/
def refTriangle : Set Vec3 :=
  {p | 0 ≤ p.x ∧ 0 ≤ p.y ∧ 0 ≤ p.z ∧ p.x + p.y + p.z = 1}

/-- The reference square of a quadrilateral face. -/
def refSquare : Set Vec2 :=
  {p | 0 ≤ p.x ∧ p.x ≤ 1 ∧ 0 ≤ p.y ∧ p.y ≤ 1}

/-- Modelled from the spec:
`NonConformingFaceMapping<tetra>::child2parentNosplit` (missing
`mappings_imp.cc` body) — the no-split transform is the identity (§4.3). -/
def child2parentNosplitTetra (p : Vec3) : Vec3 := p

/-- Modelled from the spec:
`NonConformingFaceMapping<tetra>::child2parentE01` (missing `mappings_imp.cc`
body) — the affine scale-plus-translate transforms placing the two children
of the bisection of edge 01 inside the parent triangle; a child index outside
the range implied by the rule is unspecified in the observed design and
modelled as the identity. -/
def child2parentE01 (n : Nat) (p : Vec3) : Vec3 :=
  match n with
  | 0 => ⟨p.x + p.y / 2, p.y / 2, p.z⟩
  | 1 => ⟨p.x / 2, p.y + p.x / 2, p.z⟩
  | _ => p

/-- Modelled from the spec:
`NonConformingFaceMapping<tetra>::child2parentE12` (missing `mappings_imp.cc`
body) — the two children of the bisection of edge 12. -/
def child2parentE12 (n : Nat) (p : Vec3) : Vec3 :=
  match n with
  | 0 => ⟨p.x, p.y + p.z / 2, p.z / 2⟩
  | 1 => ⟨p.x, p.y / 2, p.z + p.y / 2⟩
  | _ => p

/-- Modelled from the spec:
`NonConformingFaceMapping<tetra>::child2parentE20` (missing `mappings_imp.cc`
body) — the two children of the bisection of edge 20. -/
def child2parentE20 (n : Nat) (p : Vec3) : Vec3 :=
  match n with
  | 0 => ⟨p.x + p.z / 2, p.y, p.z / 2⟩
  | 1 => ⟨p.x / 2, p.y, p.z + p.x / 2⟩
  | _ => p

/-- Modelled from the spec:
`NonConformingFaceMapping<tetra>::child2parentIso4` (missing
`mappings_imp.cc` body) — the affine transforms of the isotropic 4-way split
of a triangle: children 0–2 are the corner triangles at vertices 0–2 and
child 3 is the middle (medial) triangle; each transform scales the child's
reference triangle by one half and translates it onto the sub-region it
occupies (§4.3). -/
def child2parentIso4Tetra (n : Nat) (p : Vec3) : Vec3 :=
  match n with
  | 0 => ⟨(p.x + 1) / 2, p.y / 2, p.z / 2⟩
  | 1 => ⟨p.x / 2, (p.y + 1) / 2, p.z / 2⟩
  | 2 => ⟨p.x / 2, p.y / 2, (p.z + 1) / 2⟩
  | 3 => ⟨(1 - p.x) / 2, (1 - p.y) / 2, (1 - p.z) / 2⟩
  | _ => p

/-- Modelled from the spec:
`NonConformingFaceMapping<tetra>::child2parent` (missing `mappings_imp.cc`
body) — "dispatches on the fixed rule to one of a small closed set of
per-rule transforms" (§4.3). -/
def NonConformingFaceMappingTetra.child2parent
    (m : NonConformingFaceMappingTetra) (p : Vec3) : Vec3 :=
  match m.rule with
  | .nosplit => child2parentNosplitTetra p
  | .e01 => child2parentE01 m.nChild p
  | .e12 => child2parentE12 m.nChild p
  | .e20 => child2parentE20 m.nChild p
  | .iso4 => child2parentIso4Tetra m.nChild p

/-- Modelled from the spec:
`NonConformingFaceMapping<hexa>::child2parentNosplit` (missing
`mappings_imp.cc` body) — the identity transform (§4.3). -/
def child2parentNosplitHexa (p : Vec2) : Vec2 := p

/-- Modelled from the spec:
`NonConformingFaceMapping<hexa>::child2parentIso4` (missing
`mappings_imp.cc` body) — the affine transforms of the isotropic 4-way split
of the reference square: each child occupies one quadrant, scaled by one half
and translated (§4.3). -/
def child2parentIso4Hexa (n : Nat) (p : Vec2) : Vec2 :=
  match n with
  | 0 => ⟨p.x / 2, p.y / 2⟩
  | 1 => ⟨(p.x + 1) / 2, p.y / 2⟩
  | 2 => ⟨(p.x + 1) / 2, (p.y + 1) / 2⟩
  | 3 => ⟨p.x / 2, (p.y + 1) / 2⟩
  | _ => p

/-- Modelled from the spec:
`NonConformingFaceMapping<hexa>::child2parent` (missing `mappings_imp.cc`
body) — dispatch on the fixed rule (§4.3). -/
def NonConformingFaceMappingHexa.child2parent
    (m : NonConformingFaceMappingHexa) (p : Vec2) : Vec2 :=
  match m.rule with
  | .nosplit => child2parentNosplitHexa p
  | .iso4 => child2parentIso4Hexa m.nChild p

/-- Image of the reference triangle under the iso4 `child2parent` transform
of child `c`. -/
def tetraIso4Image (c : Nat) : Set Vec3 :=
  (fun p => (NonConformingFaceMappingTetra.mk .iso4 c).child2parent p) '' refTriangle

/-- Image of the reference square under the iso4 `child2parent` transform of
child `c`. -/
def hexaIso4Image (c : Nat) : Set Vec2 :=
  (fun p => (NonConformingFaceMappingHexa.mk .iso4 c).child2parent p) '' refSquare

/-- The mutable per-evaluation cache of `TrilinearMapping` declared in the
header: the Jacobian `Df` with its determinant `DetDf`, and the inverse
`Dfi`; each is only valid after the most recent evaluation (§3), modelled as
`Option` values that start out absent. -/
structure JacobianCache where
  cachedDf : Option (Mat3 × ℚ)
  cachedDfi : Option Mat3
deriving DecidableEq, Repr

/-- A `TrilinearMapping` object as it exists at run time: the immutable
coefficients together with the mutable evaluation cache.  The header declares
`det`, `jacobianInverse` and `world2map` as non-const member functions and
`map2world` as const. -/
structure TrilinearMappingState where
  coeffs : TrilinearMapping
  cache : JacobianCache
deriving DecidableEq, Repr

/-- Modelled from the spec: the call `det(ξ)` on a live object — it returns
the Jacobian determinant and, being non-const, "stores [the Jacobian] as a
cache side effect" (§4.1): the state comes back with `Df`/`DetDf`
recomputed at ξ. -/
def TrilinearMappingState.detCall (s : TrilinearMappingState) (ξ : Vec3) :
    ℚ × TrilinearMappingState :=
  (s.coeffs.det ξ,
   { s with cache := { s.cache with cachedDf := some (s.coeffs.jacobian ξ, s.coeffs.det ξ) } })

/-- Modelled from the spec: the call `jacobianInverse(ξ)` on a live object —
non-const; recomputes and caches `Df`, `DetDf` and, when the determinant
magnitude passes the threshold, `Dfi` (§4.1, §3). -/
def TrilinearMappingState.jacobianInverseCall (s : TrilinearMappingState)
    (ξ : Vec3) : Except MappingError Mat3 × TrilinearMappingState :=
  (s.coeffs.jacobianInverse ξ,
   { s with cache :=
      { cachedDf := some (s.coeffs.jacobian ξ, s.coeffs.det ξ),
        cachedDfi :=
          match s.coeffs.jacobianInverse ξ with
          | .ok m => some m
          | .error _ => s.cache.cachedDfi } })

/-- Modelled from the spec: the Newton loop of `world2map` on a live object,
threading the instance state through the `jacobianInverse` call of every
iteration. -/
def newtonLoopCall (x : Vec3) :
    Nat → Vec3 → TrilinearMappingState →
      Except MappingError Vec3 × TrilinearMappingState
  | 0, _, s => (.error .nonConvergence, s)
  | k + 1, ξ, s =>
    match s.jacobianInverseCall ξ with
    | (.error e, s1) => (.error e, s1)
    | (.ok m, s1) =>
      let ξ' := ξ - m.mulVec (s1.coeffs.map2world ξ - x)
      if (s1.coeffs.map2world ξ' - x).sqNorm < newtonTolerance * newtonTolerance then
        (.ok ξ', s1)
      else
        newtonLoopCall x k ξ' s1

/-- Modelled from the spec: the call `world2map(x)` on a live object —
non-const; every Newton iteration touches the Jacobian and hence mutates the
cached state (§4.1 "every call that touches the Jacobian mutates cached
state"). -/
def TrilinearMappingState.world2mapCall (s : TrilinearMappingState)
    (x : Vec3) : Except MappingError Vec3 × TrilinearMappingState :=
  newtonLoopCall x newtonCap ⟨1/2, 1/2, 1/2⟩ s

/-- The call `map2world(ξ)` on a live object.  The header (in `src/`)
declares this member function `const`, so it cannot write to the instance:
the state is returned unchanged.  The value is "pure, no cache mutation"
(§4.1). -/
def TrilinearMappingState.map2worldCall (s : TrilinearMappingState)
    (ξ : Vec3) : Vec3 × TrilinearMappingState :=
  (s.coeffs.map2world ξ, s)

/-- A `BilinearSurfaceMapping` object as it exists at run time.  The header
(in `src/`) gives the class only the corner references and the
construction-time arrays `_b[4][3]` and `_n[3][3]`; it declares no further
members — in particular no mutable evaluation cache. -/
structure BilinearSurfaceMappingState where
  coeffs : BilinearSurfaceMapping
deriving DecidableEq, Repr

/-- The call `map2world(η)` on a live surface-patch object.  The header (in
`src/`) declares it `const` on a class without mutable members, so it cannot
write any evaluation state: the state is returned unchanged. -/
def BilinearSurfaceMappingState.map2worldCall
    (s : BilinearSurfaceMappingState) (η : Vec2) :
    Vec3 × BilinearSurfaceMappingState :=
  (s.coeffs.map2world η, s)

/-- The call `normal(η)` on a live surface-patch object.  The header (in
`src/`) declares it `const` on a class without mutable members, so it cannot
write any evaluation state: the state is returned unchanged. -/
def BilinearSurfaceMappingState.normalCall
    (s : BilinearSurfaceMappingState) (η : Vec2) :
    Vec3 × BilinearSurfaceMappingState :=
  (s.coeffs.normal η, s)

/-- A freshly constructed unit-cube mapping object: coefficients computed,
caches still unset. -/
def freshUnitCubeState : TrilinearMappingState :=
  ⟨unitCubeMap, ⟨none, none⟩⟩

/-- A freshly constructed doubled-square surface-patch object. -/
def freshPatchState : BilinearSurfaceMappingState :=
  ⟨doubledSquarePatch⟩

theorem Vec3.add_def (a b : Vec3) :
    a + b = ⟨a.x + b.x, a.y + b.y, a.z + b.z⟩ := rfl

theorem Vec3.sub_def (a b : Vec3) :
    a - b = ⟨a.x - b.x, a.y - b.y, a.z - b.z⟩ := rfl

theorem Vec3.smul_def (c : ℚ) (a : Vec3) :
    c • a = ⟨c * a.x, c * a.y, c * a.z⟩ := rfl

theorem Vec3.zero_def : (0 : Vec3) = ⟨0, 0, 0⟩ := rfl

theorem Vec3.ext_comp3 {a b : Vec3} (hx : a.x = b.x) (hy : a.y = b.y)
    (hz : a.z = b.z) : a = b := by
  cases a; cases b; simp_all

theorem Vec2.ext_comp2 {a b : Vec2} (hx : a.x = b.x) (hy : a.y = b.y) :
    a = b := by
  cases a; cases b; simp_all

/-- The cofactor inverse really is a left inverse once the determinant is
nonzero: `cofactorInverse` applied after `mulVec` restores the vector. -/
theorem Mat3.cofactorInverse_mulVec (m : Mat3) (hd : m.det3 ≠ 0) (v : Vec3) :
    (m.cofactorInverse m.det3).mulVec (m.mulVec v) = v := by
  apply Vec3.ext_comp3 <;>
    · simp only [Mat3.cofactorInverse, Mat3.mulVec, Vec3.dot, Mat3.det3] at *
      field_simp
      ring

theorem jacobianInverse_unfold (t : TrilinearMapping) (ξ : Vec3) :
    t.jacobianInverse ξ =
      (if |t.det ξ| < trilinearEpsilon then .error .singularJacobian
       else .ok ((t.jacobian ξ).cofactorInverse (t.det ξ))) := rfl

theorem newtonStep_unfold (t : TrilinearMapping) (x ξ : Vec3) :
    t.newtonStep x ξ =
      match t.jacobianInverse ξ with
      | .error e => .error e
      | .ok m => .ok (ξ - m.mulVec (t.map2world ξ - x)) := rfl

theorem newtonLoop_zero (t : TrilinearMapping) (x ξ : Vec3) :
    t.newtonLoop x 0 ξ = .error .nonConvergence := rfl

theorem newtonLoop_succ (t : TrilinearMapping) (x : Vec3) (k : Nat)
    (ξ : Vec3) :
    t.newtonLoop x (k + 1) ξ =
      match t.newtonStep x ξ with
      | .error e => .error e
      | .ok ξ' =>
        if (t.map2world ξ' - x).sqNorm < newtonTolerance * newtonTolerance then
          .ok ξ'
        else
          t.newtonLoop x k ξ' := rfl

theorem newtonCap_succ : newtonCap = 19 + 1 := rfl

/-- Whenever the Newton loop answers with a point, that point passed the
residual test: its forward image lies within the configured tolerance of the
target (in squared norm). -/
theorem newtonLoop_ok_resid (t : TrilinearMapping) (x : Vec3) :
    ∀ (fuel : Nat) (ξ0 ξ' : Vec3), t.newtonLoop x fuel ξ0 = .ok ξ' →
      (t.map2world ξ' - x).sqNorm < newtonTolerance * newtonTolerance := by
  intro fuel
  induction fuel with
  | zero =>
    intro ξ0 ξ' h
    rw [newtonLoop_zero] at h
    exact absurd h (by simp)
  | succ k ih =>
    intro ξ0 ξ' h
    rw [newtonLoop_succ] at h
    cases hs : t.newtonStep x ξ0 with
    | error e => rw [hs] at h; simp at h
    | ok ξ1 =>
      rw [hs] at h
      simp only at h
      split at h
      · cases h
        assumption
      · exact ih ξ1 ξ' h

theorem tinyCubeMap_coeffs :
    tinyCubeMap =
      ⟨⟨0,0,0⟩, ⟨1/1000,0,0⟩, ⟨0,1/1000,0⟩, ⟨0,0,1/1000⟩, 0, 0, 0, 0⟩ := by
  simp only [tinyCubeMap, TrilinearMapping.ofCorners, Vec3.sub_def,
    Vec3.add_def, Vec3.zero_def]
  norm_num

theorem tinyCubeMap_det (ξ : Vec3) : tinyCubeMap.det ξ = 1/1000000000 := by
  rw [tinyCubeMap_coeffs]
  simp only [TrilinearMapping.det, TrilinearMapping.jacobian,
    TrilinearMapping.dfx, TrilinearMapping.dfy, TrilinearMapping.dfz,
    Vec3.add_def, Vec3.smul_def, Vec3.zero_def, Mat3.det3]
  ring

theorem tinyCubeMap_det_below_threshold :
    |(1:ℚ)/1000000000| < trilinearEpsilon := by
  rw [abs_of_pos (by norm_num), trilinearEpsilon]
  norm_num

theorem tinyCubeMap_jacobianInverse (ξ : Vec3) :
    tinyCubeMap.jacobianInverse ξ = .error .singularJacobian := by
  rw [jacobianInverse_unfold, tinyCubeMap_det,
    if_pos tinyCubeMap_det_below_threshold]

theorem tinyCubeMap_world2map (x : Vec3) :
    tinyCubeMap.world2map x = .error .singularJacobian := by
  rw [TrilinearMapping.world2map, newtonCap_succ, newtonLoop_succ,
    newtonStep_unfold, tinyCubeMap_jacobianInverse]

theorem unitCubeMap_coeffs :
    unitCubeMap = ⟨⟨0,0,0⟩, ⟨1,0,0⟩, ⟨0,1,0⟩, ⟨0,0,1⟩, 0, 0, 0, 0⟩ := by
  simp only [unitCubeMap, TrilinearMapping.ofCorners, Vec3.sub_def,
    Vec3.add_def, Vec3.zero_def]
  norm_num

theorem unitCubeMap_map2world (ξ : Vec3) : unitCubeMap.map2world ξ = ξ := by
  rw [unitCubeMap_coeffs]
  apply Vec3.ext_comp3 <;>
    · simp only [TrilinearMapping.map2world, Vec3.add_def, Vec3.smul_def,
        Vec3.zero_def]
      ring

theorem unitCubeMap_det (ξ : Vec3) : unitCubeMap.det ξ = 1 := by
  rw [unitCubeMap_coeffs]
  simp only [TrilinearMapping.det, TrilinearMapping.jacobian,
    TrilinearMapping.dfx, TrilinearMapping.dfy, TrilinearMapping.dfz,
    Vec3.add_def, Vec3.smul_def, Vec3.zero_def, Mat3.det3]
  ring

theorem det_eq_jacobian_det3 (t : TrilinearMapping) (ξ : Vec3) :
    t.det ξ = (t.jacobian ξ).det3 := rfl

theorem affine_jacobian (t : TrilinearMapping) (h : t.isAffine) (ξ : Vec3) :
    t.jacobian ξ = t.affineMatrix := by
  obtain ⟨h4, h5, h6, h7⟩ := h
  simp only [TrilinearMapping.jacobian, TrilinearMapping.affineMatrix,
    TrilinearMapping.dfx, TrilinearMapping.dfy, TrilinearMapping.dfz,
    h4, h5, h6, h7, Vec3.add_def, Vec3.smul_def, Vec3.zero_def]
  norm_num

theorem affine_map2world_sub (t : TrilinearMapping) (h : t.isAffine)
    (ξ η : Vec3) :
    t.map2world ξ - t.map2world η = t.affineMatrix.mulVec (ξ - η) := by
  obtain ⟨h4, h5, h6, h7⟩ := h
  apply Vec3.ext_comp3 <;>
    · simp only [TrilinearMapping.map2world, TrilinearMapping.affineMatrix,
        Mat3.mulVec, Vec3.dot, h4, h5, h6, h7, Vec3.add_def, Vec3.sub_def,
        Vec3.smul_def, Vec3.zero_def]
      ring

/-- For an affine (parallelepiped) corner set whose constant determinant
magnitude passes the singularity threshold, the Newton iteration solves the
linear system exactly in its first update, so `world2map` recovers every
reference point exactly. -/
theorem affine_world2map_exact (t : TrilinearMapping) (h : t.isAffine)
    (hd : trilinearEpsilon ≤ |t.det ⟨1/2, 1/2, 1/2⟩|) (ξ : Vec3) :
    t.world2map (t.map2world ξ) = .ok ξ := by
  have heps : (0:ℚ) < trilinearEpsilon := by norm_num [trilinearEpsilon]
  have hne : (t.jacobian ⟨1/2, 1/2, 1/2⟩).det3 ≠ 0 := by
    have habs : 0 < |t.det ⟨1/2, 1/2, 1/2⟩| := lt_of_lt_of_le heps hd
    exact abs_pos.mp habs
  have hjac : t.jacobian ⟨1/2, 1/2, 1/2⟩ = t.affineMatrix :=
    affine_jacobian t h ⟨1/2, 1/2, 1/2⟩
  have hneA : t.affineMatrix.det3 ≠ 0 := by rw [← hjac]; exact hne
  have hji : t.jacobianInverse ⟨1/2, 1/2, 1/2⟩ =
      .ok ((t.jacobian ⟨1/2, 1/2, 1/2⟩).cofactorInverse
        (t.det ⟨1/2, 1/2, 1/2⟩)) := by
    rw [jacobianInverse_unfold, if_neg (not_lt.mpr hd)]
  have hstep : t.newtonStep (t.map2world ξ) ⟨1/2, 1/2, 1/2⟩ = .ok ξ := by
    rw [newtonStep_unfold, hji]
    have hsub : t.map2world ⟨1/2, 1/2, 1/2⟩ - t.map2world ξ =
        t.affineMatrix.mulVec ((⟨1/2, 1/2, 1/2⟩ : Vec3) - ξ) :=
      affine_map2world_sub t h ⟨1/2, 1/2, 1/2⟩ ξ
    simp only [hsub, det_eq_jacobian_det3, hjac]
    rw [Mat3.cofactorInverse_mulVec t.affineMatrix hneA
      ((⟨1/2, 1/2, 1/2⟩ : Vec3) - ξ)]
    have : (⟨1/2, 1/2, 1/2⟩ : Vec3) - ((⟨1/2, 1/2, 1/2⟩ : Vec3) - ξ) = ξ := by
      apply Vec3.ext_comp3 <;> · simp only [Vec3.sub_def]; ring
    rw [this]
  have hzero : (t.map2world ξ - t.map2world ξ).sqNorm = 0 := by
    simp only [Vec3.sub_def, Vec3.sqNorm]
    ring
  rw [TrilinearMapping.world2map, newtonCap_succ, newtonLoop_succ, hstep]
  simp only [hzero]
  rw [if_pos (by norm_num [newtonTolerance, trilinearEpsilon])]

/-- C1 (amended): whenever `world2map(map2world(ξ))` converges to a point,
that point reproduces the world image of ξ within the configured tolerance
(squared residual below threshold squared); and on every affine
(parallelepiped) corner set whose determinant magnitude is at or above the
near-singular threshold, the round trip is exact: `world2map(map2world(ξ))`
returns exactly ξ for every reference point ξ.  The unconditional form of
the claim fails on non-degenerate corner sets with determinant magnitude
below the threshold (see the counterexample). -/
theorem trilinear_roundtrip (t : TrilinearMapping) (ξ : Vec3) :
    (∀ ξ', t.world2map (t.map2world ξ) = .ok ξ' →
      (t.map2world ξ' - t.map2world ξ).sqNorm <
        newtonTolerance * newtonTolerance) ∧
    (t.isAffine → trilinearEpsilon ≤ |t.det ⟨1/2, 1/2, 1/2⟩| →
      t.world2map (t.map2world ξ) = .ok ξ) := by
  constructor
  · intro ξ' hok
    exact newtonLoop_ok_resid t (t.map2world ξ) newtonCap ⟨1/2, 1/2, 1/2⟩ ξ' hok
  · intro haff hd
    exact affine_world2map_exact t haff hd ξ

/-- Witness for C1 (amended) at the unit cube and ξ = (1/4,1/4,1/4): the
hypotheses hold and the round trip is exact. -/
theorem trilinear_roundtrip_witness :
    unitCubeMap.world2map (unitCubeMap.map2world ⟨1/4, 1/4, 1/4⟩) =
      .ok ⟨1/4, 1/4, 1/4⟩ ∧
    (unitCubeMap.map2world ⟨1/4, 1/4, 1/4⟩ -
        unitCubeMap.map2world ⟨1/4, 1/4, 1/4⟩).sqNorm <
      newtonTolerance * newtonTolerance := by
  have haff : unitCubeMap.isAffine := by
    rw [unitCubeMap_coeffs]
    exact ⟨rfl, rfl, rfl, rfl⟩
  have hdet : trilinearEpsilon ≤ |unitCubeMap.det ⟨1/2, 1/2, 1/2⟩| := by
    rw [unitCubeMap_det, abs_of_pos (by norm_num)]
    norm_num [trilinearEpsilon]
  have h := trilinear_roundtrip unitCubeMap ⟨1/4, 1/4, 1/4⟩
  have hok := h.2 haff hdet
  exact ⟨hok, h.1 ⟨1/4, 1/4, 1/4⟩ hok⟩

/-- Counterexample to C1 as stated: the corners of an axis-aligned cube of
side 10⁻³ form a non-degenerate hexahedron (its Jacobian determinant is the
nonzero constant 10⁻⁹), and (1/4,1/4,1/4) is interior to the reference cube,
yet `world2map(map2world(ξ))` does not yield ξ: the very first Newton
iteration finds the determinant magnitude below the near-singular threshold
and reports the domain error instead of any point. -/
theorem trilinear_roundtrip_counterexample :
    tinyCubeMap.nonDegenerate ∧ inUnitCubeInterior ⟨1/4, 1/4, 1/4⟩ ∧
    tinyCubeMap.world2map (tinyCubeMap.map2world ⟨1/4, 1/4, 1/4⟩) =
      .error .singularJacobian := by
  refine ⟨?_, ?_, ?_⟩
  · intro ξ _
    rw [tinyCubeMap_det]
    norm_num
  · norm_num [inUnitCubeInterior]
  · exact tinyCubeMap_world2map _

/-- C2: `world2map` is the Newton iteration seeded at the reference-domain
centroid (0.5,0.5,0.5) with a bounded iteration cap, and every call
terminates with one of three reported outcomes: a point whose residual norm
is below the threshold, the non-convergence report after the cap, or the
near-singular domain error propagated from `jacobianInverse`. -/
theorem world2map_newton_terminates (t : TrilinearMapping) (x : Vec3) :
    t.world2map x = t.newtonLoop x newtonCap ⟨1/2, 1/2, 1/2⟩ ∧
    ((∃ ξ', t.world2map x = .ok ξ' ∧
        (t.map2world ξ' - x).sqNorm < newtonTolerance * newtonTolerance) ∨
      t.world2map x = .error .nonConvergence ∨
      t.world2map x = .error .singularJacobian) := by
  refine ⟨rfl, ?_⟩
  cases h : t.world2map x with
  | ok ξ' =>
    exact .inl ⟨ξ', rfl, newtonLoop_ok_resid t x newtonCap ⟨1/2, 1/2, 1/2⟩ ξ' h⟩
  | error e =>
    cases e with
    | singularJacobian => exact .inr (.inr rfl)
    | nonConvergence => exact .inr (.inl rfl)

/-- C3: `jacobianInverse` either hits the near-singular guard — determinant
magnitude below `_epsilon`, reported as the domain error — or, exactly when
the determinant magnitude is at or above the threshold, returns the explicit
cofactor inverse of the Jacobian, which genuinely inverts it. -/
theorem jacobianInverse_threshold (t : TrilinearMapping) (ξ : Vec3) :
    (|t.det ξ| < trilinearEpsilon ∧
      t.jacobianInverse ξ = .error .singularJacobian) ∨
    (trilinearEpsilon ≤ |t.det ξ| ∧
      t.jacobianInverse ξ = .ok ((t.jacobian ξ).cofactorInverse (t.det ξ)) ∧
      ∀ v, ((t.jacobian ξ).cofactorInverse (t.det ξ)).mulVec
          ((t.jacobian ξ).mulVec v) = v) := by
  by_cases h : |t.det ξ| < trilinearEpsilon
  · exact .inl ⟨h, by rw [jacobianInverse_unfold, if_pos h]⟩
  · have hle := not_lt.mp h
    have hne : (t.jacobian ξ).det3 ≠ 0 := by
      have heps : (0:ℚ) < trilinearEpsilon := by norm_num [trilinearEpsilon]
      exact abs_pos.mp (lt_of_lt_of_le heps hle)
    exact .inr ⟨hle, by rw [jacobianInverse_unfold, if_neg h],
      fun v => Mat3.cofactorInverse_mulVec (t.jacobian ξ) hne v⟩

/-- Swapping the corners within each edge parallel to the first reference
axis composes the map with the reflection `ξx ↦ 1−ξx` of the reference cube,
so it negates the Jacobian determinant pointwise. -/
theorem Mat3.ext_rows {m n : Mat3} (h0 : m.r0 = n.r0) (h1 : m.r1 = n.r1)
    (h2 : m.r2 = n.r2) : m = n := by
  cases m; cases n; simp_all

/-- Negating the first column of a 3×3 matrix negates its determinant. -/
theorem Mat3.det3_negCol0 (m : Mat3) :
    (Mat3.mk ⟨-m.r0.x, m.r0.y, m.r0.z⟩ ⟨-m.r1.x, m.r1.y, m.r1.z⟩
      ⟨-m.r2.x, m.r2.y, m.r2.z⟩).det3 = -(m.det3) := by
  simp only [Mat3.det3]
  ring

/-- Swapping the corners within each edge parallel to the first reference
axis composes the map with the reflection ξx ↦ 1−ξx of the reference cube:
the Jacobian of the permuted corner set at ξ equals, up to negation of its
first column, the Jacobian of the original corner set at the reflected
point. -/
theorem jacobian_mirror (p0 p1 p2 p3 p4 p5 p6 p7 : Vec3) (ξ : Vec3) :
    (TrilinearMapping.ofCorners p1 p0 p3 p2 p5 p4 p7 p6).jacobian ξ =
      Mat3.mk
        ⟨-(((TrilinearMapping.ofCorners p0 p1 p2 p3 p4 p5 p6 p7).jacobian
            ⟨1 - ξ.x, ξ.y, ξ.z⟩).r0.x),
          ((TrilinearMapping.ofCorners p0 p1 p2 p3 p4 p5 p6 p7).jacobian
            ⟨1 - ξ.x, ξ.y, ξ.z⟩).r0.y,
          ((TrilinearMapping.ofCorners p0 p1 p2 p3 p4 p5 p6 p7).jacobian
            ⟨1 - ξ.x, ξ.y, ξ.z⟩).r0.z⟩
        ⟨-(((TrilinearMapping.ofCorners p0 p1 p2 p3 p4 p5 p6 p7).jacobian
            ⟨1 - ξ.x, ξ.y, ξ.z⟩).r1.x),
          ((TrilinearMapping.ofCorners p0 p1 p2 p3 p4 p5 p6 p7).jacobian
            ⟨1 - ξ.x, ξ.y, ξ.z⟩).r1.y,
          ((TrilinearMapping.ofCorners p0 p1 p2 p3 p4 p5 p6 p7).jacobian
            ⟨1 - ξ.x, ξ.y, ξ.z⟩).r1.z⟩
        ⟨-(((TrilinearMapping.ofCorners p0 p1 p2 p3 p4 p5 p6 p7).jacobian
            ⟨1 - ξ.x, ξ.y, ξ.z⟩).r2.x),
          ((TrilinearMapping.ofCorners p0 p1 p2 p3 p4 p5 p6 p7).jacobian
            ⟨1 - ξ.x, ξ.y, ξ.z⟩).r2.y,
          ((TrilinearMapping.ofCorners p0 p1 p2 p3 p4 p5 p6 p7).jacobian
            ⟨1 - ξ.x, ξ.y, ξ.z⟩).r2.z⟩ := by
  apply Mat3.ext_rows <;> apply Vec3.ext_comp3 <;>
    · simp only [TrilinearMapping.ofCorners, TrilinearMapping.jacobian,
        TrilinearMapping.dfx, TrilinearMapping.dfy, TrilinearMapping.dfz,
        Vec3.sub_def, Vec3.add_def, Vec3.smul_def]
      ring

theorem det_mirror (p0 p1 p2 p3 p4 p5 p6 p7 : Vec3) (ξ : Vec3) :
    (TrilinearMapping.ofCorners p1 p0 p3 p2 p5 p4 p7 p6).det ξ =
      -((TrilinearMapping.ofCorners p0 p1 p2 p3 p4 p5 p6 p7).det
        ⟨1 - ξ.x, ξ.y, ξ.z⟩) := by
  rw [TrilinearMapping.det, jacobian_mirror, Mat3.det3_negCol0]
  rfl

/-- C6: with proper orientation read as a positive Jacobian determinant
throughout the reference cube (§4.1), a properly oriented corner set has
`det(ξ) > 0` everywhere on the cube, and the orientation-inverting corner
permutation (the mirror swap within each edge parallel to the first axis)
makes `det(ξ) < 0` everywhere on the cube. -/
theorem det_orientation_sign (p0 p1 p2 p3 p4 p5 p6 p7 : Vec3)
    (h : (TrilinearMapping.ofCorners p0 p1 p2 p3 p4 p5 p6 p7).properlyOriented) :
    (∀ ξ, inUnitCube ξ →
      0 < (TrilinearMapping.ofCorners p0 p1 p2 p3 p4 p5 p6 p7).det ξ) ∧
    (∀ ξ, inUnitCube ξ →
      (TrilinearMapping.ofCorners p1 p0 p3 p2 p5 p4 p7 p6).det ξ < 0) := by
  refine ⟨h, ?_⟩
  intro ξ hξ
  rw [det_mirror]
  have hmem : inUnitCube ⟨1 - ξ.x, ξ.y, ξ.z⟩ := by
    obtain ⟨a, b, c, d, e, f⟩ := hξ
    refine ⟨?_, ?_, c, d, e, f⟩
    · show (0:ℚ) ≤ 1 - ξ.x
      linarith
    · show (1:ℚ) - ξ.x ≤ 1
      linarith
  have := h _ hmem
  linarith

/-- Witness for C6 at the unit cube: it is properly oriented, and the
mirrored corner ordering has negative determinant at a sample cube point. -/
theorem det_orientation_sign_witness :
    unitCubeMap.properlyOriented ∧
    mirroredUnitCubeMap.det ⟨1/3, 1/3, 1/3⟩ < 0 := by
  have hor : unitCubeMap.properlyOriented := by
    intro ξ _
    rw [unitCubeMap_det]
    norm_num
  have h := det_orientation_sign ⟨0,0,0⟩ ⟨1,0,0⟩ ⟨0,1,0⟩ ⟨1,1,0⟩
    ⟨0,0,1⟩ ⟨1,0,1⟩ ⟨0,1,1⟩ ⟨1,1,1⟩ hor
  exact ⟨hor, h.2 ⟨1/3, 1/3, 1/3⟩ (by norm_num [inUnitCube])⟩

/-- C7: the trilinear mapping constructed on the corners of the unit cube in
standard Dune ordering is the identity on the reference cube and has unit
Jacobian determinant everywhere on it. -/
theorem unitCube_identity (ξ : Vec3) (_h : inUnitCube ξ) :
    unitCubeMap.map2world ξ = ξ ∧ unitCubeMap.det ξ = 1 :=
  ⟨unitCubeMap_map2world ξ, unitCubeMap_det ξ⟩

/-- Witness for C7 at the cube point (1/2,1/3,1/4). -/
theorem unitCube_identity_witness :
    inUnitCube ⟨1/2, 1/3, 1/4⟩ ∧
    unitCubeMap.map2world ⟨1/2, 1/3, 1/4⟩ = ⟨1/2, 1/3, 1/4⟩ ∧
    unitCubeMap.det ⟨1/2, 1/3, 1/4⟩ = 1 := by
  have hmem : inUnitCube ⟨1/2, 1/3, 1/4⟩ := by norm_num [inUnitCube]
  have h := unitCube_identity ⟨1/2, 1/3, 1/4⟩ hmem
  exact ⟨hmem, h.1, h.2⟩

/-- C8: for every constructed surface patch and parameter point, `normal`
returns exactly the cross product of the two tangent (partial-derivative)
vectors of `map2world`; the tangent vectors are the exact directional
derivatives (the patch is affine in each parameter separately, so the
first-order expansion is exact for every offset `h`); the normal itself is an
affine function of each surface parameter; and it is not normalized to unit
length (the doubled square patch has a normal of squared length 16
everywhere). -/
theorem bilinear_normal_cross_of_tangents (p0 p1 p2 p3 : Vec3) (η : Vec2) :
    (∀ h : ℚ,
      (BilinearSurfaceMapping.ofCorners p0 p1 p2 p3).map2world ⟨η.x + h, η.y⟩ =
        (BilinearSurfaceMapping.ofCorners p0 p1 p2 p3).map2world η +
          h • (BilinearSurfaceMapping.ofCorners p0 p1 p2 p3).tangentX η) ∧
    (∀ h : ℚ,
      (BilinearSurfaceMapping.ofCorners p0 p1 p2 p3).map2world ⟨η.x, η.y + h⟩ =
        (BilinearSurfaceMapping.ofCorners p0 p1 p2 p3).map2world η +
          h • (BilinearSurfaceMapping.ofCorners p0 p1 p2 p3).tangentY η) ∧
    (BilinearSurfaceMapping.ofCorners p0 p1 p2 p3).normal η =
      ((BilinearSurfaceMapping.ofCorners p0 p1 p2 p3).tangentX η).cross
        ((BilinearSurfaceMapping.ofCorners p0 p1 p2 p3).tangentY η) ∧
    (∀ h : ℚ,
      (BilinearSurfaceMapping.ofCorners p0 p1 p2 p3).normal ⟨η.x + h, η.y⟩ =
        (BilinearSurfaceMapping.ofCorners p0 p1 p2 p3).normal η +
          h • (BilinearSurfaceMapping.ofCorners p0 p1 p2 p3).n1) ∧
    (∀ h : ℚ,
      (BilinearSurfaceMapping.ofCorners p0 p1 p2 p3).normal ⟨η.x, η.y + h⟩ =
        (BilinearSurfaceMapping.ofCorners p0 p1 p2 p3).normal η +
          h • (BilinearSurfaceMapping.ofCorners p0 p1 p2 p3).n2) ∧
    (doubledSquarePatch.normal η).sqNorm ≠ 1 := by
  refine ⟨?_, ?_, ?_, ?_, ?_, ?_⟩
  · intro h
    apply Vec3.ext_comp3 <;>
      · simp only [BilinearSurfaceMapping.ofCorners,
          BilinearSurfaceMapping.map2world, BilinearSurfaceMapping.tangentX,
          Vec3.add_def, Vec3.sub_def, Vec3.smul_def]
        ring
  · intro h
    apply Vec3.ext_comp3 <;>
      · simp only [BilinearSurfaceMapping.ofCorners,
          BilinearSurfaceMapping.map2world, BilinearSurfaceMapping.tangentY,
          Vec3.add_def, Vec3.sub_def, Vec3.smul_def]
        ring
  · apply Vec3.ext_comp3 <;>
      · simp only [BilinearSurfaceMapping.ofCorners,
          BilinearSurfaceMapping.normal, BilinearSurfaceMapping.tangentX,
          BilinearSurfaceMapping.tangentY, Vec3.cross, Vec3.add_def,
          Vec3.sub_def, Vec3.smul_def]
        ring
  · intro h
    apply Vec3.ext_comp3 <;>
      · simp only [BilinearSurfaceMapping.ofCorners,
          BilinearSurfaceMapping.normal, Vec3.cross, Vec3.add_def,
          Vec3.sub_def, Vec3.smul_def]
        ring
  · intro h
    apply Vec3.ext_comp3 <;>
      · simp only [BilinearSurfaceMapping.ofCorners,
          BilinearSurfaceMapping.normal, Vec3.cross, Vec3.add_def,
          Vec3.sub_def, Vec3.smul_def]
        ring
  · have : (doubledSquarePatch.normal η).sqNorm = 16 := by
      simp only [doubledSquarePatch, BilinearSurfaceMapping.ofCorners,
        BilinearSurfaceMapping.normal, Vec3.cross, Vec3.add_def, Vec3.sub_def,
        Vec3.smul_def, Vec3.sqNorm]
      ring
    rw [this]
    norm_num

theorem tetra_iso4_apply_0 (p : Vec3) :
    (NonConformingFaceMappingTetra.mk .iso4 0).child2parent p =
      ⟨(p.x + 1) / 2, p.y / 2, p.z / 2⟩ := rfl

theorem tetra_iso4_apply_1 (p : Vec3) :
    (NonConformingFaceMappingTetra.mk .iso4 1).child2parent p =
      ⟨p.x / 2, (p.y + 1) / 2, p.z / 2⟩ := rfl

theorem tetra_iso4_apply_2 (p : Vec3) :
    (NonConformingFaceMappingTetra.mk .iso4 2).child2parent p =
      ⟨p.x / 2, p.y / 2, (p.z + 1) / 2⟩ := rfl

theorem tetra_iso4_apply_3 (p : Vec3) :
    (NonConformingFaceMappingTetra.mk .iso4 3).child2parent p =
      ⟨(1 - p.x) / 2, (1 - p.y) / 2, (1 - p.z) / 2⟩ := rfl

theorem mem_tetraIso4Image_0 (q : Vec3) :
    q ∈ tetraIso4Image 0 ↔ q ∈ refTriangle ∧ 1/2 ≤ q.x := by
  constructor
  · rintro ⟨p, hp, rfl⟩
    simp only [refTriangle, Set.mem_setOf_eq] at hp
    obtain ⟨ha, hb, hc, hd⟩ := hp
    simp only [tetra_iso4_apply_0, refTriangle, Set.mem_setOf_eq]
    refine ⟨⟨by linarith, by linarith, by linarith, by linarith⟩, by linarith⟩
  · rintro ⟨hq, hx⟩
    simp only [refTriangle, Set.mem_setOf_eq] at hq
    obtain ⟨ha, hb, hc, hd⟩ := hq
    refine ⟨⟨2 * q.x - 1, 2 * q.y, 2 * q.z⟩, ?_, ?_⟩
    · simp only [refTriangle, Set.mem_setOf_eq]
      refine ⟨by linarith, by linarith, by linarith, by linarith⟩
    · simp only [tetra_iso4_apply_0]
      apply Vec3.ext_comp3
      · show (2 * q.x - 1 + 1) / 2 = q.x
        ring
      · show 2 * q.y / 2 = q.y
        ring
      · show 2 * q.z / 2 = q.z
        ring

theorem mem_tetraIso4Image_1 (q : Vec3) :
    q ∈ tetraIso4Image 1 ↔ q ∈ refTriangle ∧ 1/2 ≤ q.y := by
  constructor
  · rintro ⟨p, hp, rfl⟩
    simp only [refTriangle, Set.mem_setOf_eq] at hp
    obtain ⟨ha, hb, hc, hd⟩ := hp
    simp only [tetra_iso4_apply_1, refTriangle, Set.mem_setOf_eq]
    refine ⟨⟨by linarith, by linarith, by linarith, by linarith⟩, by linarith⟩
  · rintro ⟨hq, hx⟩
    simp only [refTriangle, Set.mem_setOf_eq] at hq
    obtain ⟨ha, hb, hc, hd⟩ := hq
    refine ⟨⟨2 * q.x, 2 * q.y - 1, 2 * q.z⟩, ?_, ?_⟩
    · simp only [refTriangle, Set.mem_setOf_eq]
      refine ⟨by linarith, by linarith, by linarith, by linarith⟩
    · simp only [tetra_iso4_apply_1]
      apply Vec3.ext_comp3
      · show 2 * q.x / 2 = q.x
        ring
      · show (2 * q.y - 1 + 1) / 2 = q.y
        ring
      · show 2 * q.z / 2 = q.z
        ring

theorem mem_tetraIso4Image_2 (q : Vec3) :
    q ∈ tetraIso4Image 2 ↔ q ∈ refTriangle ∧ 1/2 ≤ q.z := by
  constructor
  · rintro ⟨p, hp, rfl⟩
    simp only [refTriangle, Set.mem_setOf_eq] at hp
    obtain ⟨ha, hb, hc, hd⟩ := hp
    simp only [tetra_iso4_apply_2, refTriangle, Set.mem_setOf_eq]
    refine ⟨⟨by linarith, by linarith, by linarith, by linarith⟩, by linarith⟩
  · rintro ⟨hq, hx⟩
    simp only [refTriangle, Set.mem_setOf_eq] at hq
    obtain ⟨ha, hb, hc, hd⟩ := hq
    refine ⟨⟨2 * q.x, 2 * q.y, 2 * q.z - 1⟩, ?_, ?_⟩
    · simp only [refTriangle, Set.mem_setOf_eq]
      refine ⟨by linarith, by linarith, by linarith, by linarith⟩
    · simp only [tetra_iso4_apply_2]
      apply Vec3.ext_comp3
      · show 2 * q.x / 2 = q.x
        ring
      · show 2 * q.y / 2 = q.y
        ring
      · show (2 * q.z - 1 + 1) / 2 = q.z
        ring

theorem mem_tetraIso4Image_3 (q : Vec3) :
    q ∈ tetraIso4Image 3 ↔
      q ∈ refTriangle ∧ q.x ≤ 1/2 ∧ q.y ≤ 1/2 ∧ q.z ≤ 1/2 := by
  constructor
  · rintro ⟨p, hp, rfl⟩
    simp only [refTriangle, Set.mem_setOf_eq] at hp
    obtain ⟨ha, hb, hc, hd⟩ := hp
    simp only [tetra_iso4_apply_3, refTriangle, Set.mem_setOf_eq]
    refine ⟨⟨by linarith, by linarith, by linarith, by linarith⟩,
      by linarith, by linarith, by linarith⟩
  · rintro ⟨hq, hx, hy, hz⟩
    simp only [refTriangle, Set.mem_setOf_eq] at hq
    obtain ⟨ha, hb, hc, hd⟩ := hq
    refine ⟨⟨1 - 2 * q.x, 1 - 2 * q.y, 1 - 2 * q.z⟩, ?_, ?_⟩
    · simp only [refTriangle, Set.mem_setOf_eq]
      refine ⟨by linarith, by linarith, by linarith, by linarith⟩
    · simp only [tetra_iso4_apply_3]
      apply Vec3.ext_comp3
      · show (1 - (1 - 2 * q.x)) / 2 = q.x
        ring
      · show (1 - (1 - 2 * q.y)) / 2 = q.y
        ring
      · show (1 - (1 - 2 * q.z)) / 2 = q.z
        ring

/-- C4: for the isotropic 4-way split on a triangular face, the four
`child2parent` images of the parent reference triangle over child indices
0–3 tile it exactly: their union is the whole reference triangle, and any two
distinct child images meet only inside one of the three midlines
`{λᵢ = 1/2}` — each such midline section of the triangle is exactly the
shared edge of the two children that touch it. -/
theorem tetra_iso4_tiling :
    (tetraIso4Image 0 ∪ tetraIso4Image 1 ∪ tetraIso4Image 2 ∪
        tetraIso4Image 3 = refTriangle) ∧
    (∀ i j, i < 4 → j < 4 → i ≠ j →
      tetraIso4Image i ∩ tetraIso4Image j ⊆
        {q : Vec3 | q.x = 1/2 ∨ q.y = 1/2 ∨ q.z = 1/2}) := by
  constructor
  · ext q
    simp only [Set.mem_union, mem_tetraIso4Image_0, mem_tetraIso4Image_1,
      mem_tetraIso4Image_2, mem_tetraIso4Image_3]
    constructor
    · rintro (((⟨h, _⟩ | ⟨h, _⟩) | ⟨h, _⟩) | ⟨h, _, _, _⟩) <;> exact h
    · intro hq
      by_cases hx : 1/2 ≤ q.x
      · exact .inl (.inl (.inl ⟨hq, hx⟩))
      · by_cases hy : 1/2 ≤ q.y
        · exact .inl (.inl (.inr ⟨hq, hy⟩))
        · by_cases hz : 1/2 ≤ q.z
          · exact .inl (.inr ⟨hq, hz⟩)
          · exact .inr ⟨hq, le_of_not_le hx, le_of_not_le hy, le_of_not_le hz⟩
  · intro i j hi hj hij q hq
    obtain ⟨h1, h2⟩ := hq
    simp only [Set.mem_setOf_eq]
    interval_cases i <;> interval_cases j <;>
      first
      | exact absurd rfl hij
      | · simp only [mem_tetraIso4Image_0, mem_tetraIso4Image_1,
            mem_tetraIso4Image_2, mem_tetraIso4Image_3, refTriangle,
            Set.mem_setOf_eq] at h1 h2
          obtain ⟨⟨a1, a2, a3, a4⟩, h1r⟩ := h1
          obtain ⟨⟨b1, b2, b3, b4⟩, h2r⟩ := h2
          try obtain ⟨c1, c2, c3⟩ := h1r
          try obtain ⟨d1, d2, d3⟩ := h2r
          first
          | exact Or.inl (by linarith)
          | exact Or.inr (Or.inl (by linarith))
          | exact Or.inr (Or.inr (by linarith))

/-- Witness for C4: the point (1/2,1/4,1/4) lies in the images of child 0 and
child 3, and the tiling theorem places it on a midline — the shared edge. -/
theorem tetra_iso4_tiling_witness :
    (⟨1/2, 1/4, 1/4⟩ : Vec3) ∈ tetraIso4Image 0 ∧
    (⟨1/2, 1/4, 1/4⟩ : Vec3) ∈ tetraIso4Image 3 ∧
    (⟨1/2, 1/4, 1/4⟩ : Vec3) ∈
      {q : Vec3 | q.x = 1/2 ∨ q.y = 1/2 ∨ q.z = 1/2} := by
  have h0 : (⟨1/2, 1/4, 1/4⟩ : Vec3) ∈ tetraIso4Image 0 := by
    rw [mem_tetraIso4Image_0]
    simp only [refTriangle, Set.mem_setOf_eq]
    norm_num
  have h3 : (⟨1/2, 1/4, 1/4⟩ : Vec3) ∈ tetraIso4Image 3 := by
    rw [mem_tetraIso4Image_3]
    simp only [refTriangle, Set.mem_setOf_eq]
    norm_num
  have hmid := tetra_iso4_tiling.2 0 3 (by norm_num) (by norm_num)
    (by norm_num) (Set.mem_inter h0 h3)
  exact ⟨h0, h3, hmid⟩

/-- C5: for the no-split refinement rule, on either element topology,
`child2parent` is the identity on local face coordinates, for every child
index. -/
theorem nosplit_child2parent_id :
    (∀ (n : Nat) (p : Vec3),
      (NonConformingFaceMappingTetra.mk .nosplit n).child2parent p = p) ∧
    (∀ (n : Nat) (q : Vec2),
      (NonConformingFaceMappingHexa.mk .nosplit n).child2parent q = q) :=
  ⟨fun _ _ => rfl, fun _ _ => rfl⟩

theorem hexa_iso4_apply_0 (p : Vec2) :
    (NonConformingFaceMappingHexa.mk .iso4 0).child2parent p =
      ⟨p.x / 2, p.y / 2⟩ := rfl

theorem hexa_iso4_apply_1 (p : Vec2) :
    (NonConformingFaceMappingHexa.mk .iso4 1).child2parent p =
      ⟨(p.x + 1) / 2, p.y / 2⟩ := rfl

theorem hexa_iso4_apply_2 (p : Vec2) :
    (NonConformingFaceMappingHexa.mk .iso4 2).child2parent p =
      ⟨(p.x + 1) / 2, (p.y + 1) / 2⟩ := rfl

theorem hexa_iso4_apply_3 (p : Vec2) :
    (NonConformingFaceMappingHexa.mk .iso4 3).child2parent p =
      ⟨p.x / 2, (p.y + 1) / 2⟩ := rfl

theorem mem_hexaIso4Image_0 (q : Vec2) :
    q ∈ hexaIso4Image 0 ↔ q ∈ refSquare ∧ q.x ≤ 1/2 ∧ q.y ≤ 1/2 := by
  constructor
  · rintro ⟨p, hp, rfl⟩
    simp only [refSquare, Set.mem_setOf_eq] at hp
    obtain ⟨ha, hb, hc, hd⟩ := hp
    simp only [hexa_iso4_apply_0, refSquare, Set.mem_setOf_eq]
    refine ⟨⟨by linarith, by linarith, by linarith, by linarith⟩,
      by linarith, by linarith⟩
  · rintro ⟨hq, hx, hy⟩
    simp only [refSquare, Set.mem_setOf_eq] at hq
    obtain ⟨ha, hb, hc, hd⟩ := hq
    refine ⟨⟨2 * q.x, 2 * q.y⟩, ?_, ?_⟩
    · simp only [refSquare, Set.mem_setOf_eq]
      refine ⟨by linarith, by linarith, by linarith, by linarith⟩
    · simp only [hexa_iso4_apply_0]
      apply Vec2.ext_comp2
      · show 2 * q.x / 2 = q.x
        ring
      · show 2 * q.y / 2 = q.y
        ring

theorem mem_hexaIso4Image_1 (q : Vec2) :
    q ∈ hexaIso4Image 1 ↔ q ∈ refSquare ∧ 1/2 ≤ q.x ∧ q.y ≤ 1/2 := by
  constructor
  · rintro ⟨p, hp, rfl⟩
    simp only [refSquare, Set.mem_setOf_eq] at hp
    obtain ⟨ha, hb, hc, hd⟩ := hp
    simp only [hexa_iso4_apply_1, refSquare, Set.mem_setOf_eq]
    refine ⟨⟨by linarith, by linarith, by linarith, by linarith⟩,
      by linarith, by linarith⟩
  · rintro ⟨hq, hx, hy⟩
    simp only [refSquare, Set.mem_setOf_eq] at hq
    obtain ⟨ha, hb, hc, hd⟩ := hq
    refine ⟨⟨2 * q.x - 1, 2 * q.y⟩, ?_, ?_⟩
    · simp only [refSquare, Set.mem_setOf_eq]
      refine ⟨by linarith, by linarith, by linarith, by linarith⟩
    · simp only [hexa_iso4_apply_1]
      apply Vec2.ext_comp2
      · show (2 * q.x - 1 + 1) / 2 = q.x
        ring
      · show 2 * q.y / 2 = q.y
        ring

theorem mem_hexaIso4Image_2 (q : Vec2) :
    q ∈ hexaIso4Image 2 ↔ q ∈ refSquare ∧ 1/2 ≤ q.x ∧ 1/2 ≤ q.y := by
  constructor
  · rintro ⟨p, hp, rfl⟩
    simp only [refSquare, Set.mem_setOf_eq] at hp
    obtain ⟨ha, hb, hc, hd⟩ := hp
    simp only [hexa_iso4_apply_2, refSquare, Set.mem_setOf_eq]
    refine ⟨⟨by linarith, by linarith, by linarith, by linarith⟩,
      by linarith, by linarith⟩
  · rintro ⟨hq, hx, hy⟩
    simp only [refSquare, Set.mem_setOf_eq] at hq
    obtain ⟨ha, hb, hc, hd⟩ := hq
    refine ⟨⟨2 * q.x - 1, 2 * q.y - 1⟩, ?_, ?_⟩
    · simp only [refSquare, Set.mem_setOf_eq]
      refine ⟨by linarith, by linarith, by linarith, by linarith⟩
    · simp only [hexa_iso4_apply_2]
      apply Vec2.ext_comp2
      · show (2 * q.x - 1 + 1) / 2 = q.x
        ring
      · show (2 * q.y - 1 + 1) / 2 = q.y
        ring

theorem mem_hexaIso4Image_3 (q : Vec2) :
    q ∈ hexaIso4Image 3 ↔ q ∈ refSquare ∧ q.x ≤ 1/2 ∧ 1/2 ≤ q.y := by
  constructor
  · rintro ⟨p, hp, rfl⟩
    simp only [refSquare, Set.mem_setOf_eq] at hp
    obtain ⟨ha, hb, hc, hd⟩ := hp
    simp only [hexa_iso4_apply_3, refSquare, Set.mem_setOf_eq]
    refine ⟨⟨by linarith, by linarith, by linarith, by linarith⟩,
      by linarith, by linarith⟩
  · rintro ⟨hq, hx, hy⟩
    simp only [refSquare, Set.mem_setOf_eq] at hq
    obtain ⟨ha, hb, hc, hd⟩ := hq
    refine ⟨⟨2 * q.x, 2 * q.y - 1⟩, ?_, ?_⟩
    · simp only [refSquare, Set.mem_setOf_eq]
      refine ⟨by linarith, by linarith, by linarith, by linarith⟩
    · simp only [hexa_iso4_apply_3]
      apply Vec2.ext_comp2
      · show 2 * q.x / 2 = q.x
        ring
      · show (2 * q.y - 1 + 1) / 2 = q.y
        ring

/-- C10: for the isotropic 4-way split on a quadrilateral face, the four
`child2parent` images of the parent reference square over child indices 0–3
tile it exactly: their union is the whole reference square, and any two
distinct child images meet only inside one of the two midlines `{x = 1/2}`,
`{y = 1/2}` — the shared edges of the quadrant decomposition. -/
theorem hexa_iso4_tiling :
    (hexaIso4Image 0 ∪ hexaIso4Image 1 ∪ hexaIso4Image 2 ∪
        hexaIso4Image 3 = refSquare) ∧
    (∀ i j, i < 4 → j < 4 → i ≠ j →
      hexaIso4Image i ∩ hexaIso4Image j ⊆
        {q : Vec2 | q.x = 1/2 ∨ q.y = 1/2}) := by
  constructor
  · ext q
    simp only [Set.mem_union, mem_hexaIso4Image_0, mem_hexaIso4Image_1,
      mem_hexaIso4Image_2, mem_hexaIso4Image_3]
    constructor
    · rintro (((⟨h, _, _⟩ | ⟨h, _, _⟩) | ⟨h, _, _⟩) | ⟨h, _, _⟩) <;> exact h
    · intro hq
      by_cases hx : q.x ≤ 1/2
      · by_cases hy : q.y ≤ 1/2
        · exact .inl (.inl (.inl ⟨hq, hx, hy⟩))
        · exact .inr ⟨hq, hx, le_of_not_le hy⟩
      · by_cases hy : q.y ≤ 1/2
        · exact .inl (.inl (.inr ⟨hq, le_of_not_le hx, hy⟩))
        · exact .inl (.inr ⟨hq, le_of_not_le hx, le_of_not_le hy⟩)
  · intro i j hi hj hij q hq
    obtain ⟨h1, h2⟩ := hq
    simp only [Set.mem_setOf_eq]
    interval_cases i <;> interval_cases j <;>
      first
      | exact absurd rfl hij
      | · simp only [mem_hexaIso4Image_0, mem_hexaIso4Image_1,
            mem_hexaIso4Image_2, mem_hexaIso4Image_3, refSquare,
            Set.mem_setOf_eq] at h1 h2
          obtain ⟨⟨a1, a2, a3, a4⟩, c1, c2⟩ := h1
          obtain ⟨⟨b1, b2, b3, b4⟩, d1, d2⟩ := h2
          first
          | exact Or.inl (by linarith)
          | exact Or.inr (by linarith)

/-- Witness for C10: the point (1/2,1/4) lies in the images of child 0 and
child 1, and the tiling theorem places it on the vertical midline — the
shared edge of those two quadrants. -/
theorem hexa_iso4_tiling_witness :
    (⟨1/2, 1/4⟩ : Vec2) ∈ hexaIso4Image 0 ∧
    (⟨1/2, 1/4⟩ : Vec2) ∈ hexaIso4Image 1 ∧
    (⟨1/2, 1/4⟩ : Vec2) ∈ {q : Vec2 | q.x = 1/2 ∨ q.y = 1/2} := by
  have h0 : (⟨1/2, 1/4⟩ : Vec2) ∈ hexaIso4Image 0 := by
    rw [mem_hexaIso4Image_0]
    simp only [refSquare, Set.mem_setOf_eq]
    norm_num
  have h1 : (⟨1/2, 1/4⟩ : Vec2) ∈ hexaIso4Image 1 := by
    rw [mem_hexaIso4Image_1]
    simp only [refSquare, Set.mem_setOf_eq]
    norm_num
  have hmid := hexa_iso4_tiling.2 0 1 (by norm_num) (by norm_num)
    (by norm_num) (Set.mem_inter h0 h1)
  exact ⟨h0, h1, hmid⟩

theorem jacobianInverseCall_writes (s : TrilinearMappingState) (ξ : Vec3) :
    ((s.jacobianInverseCall ξ).2).cache.cachedDf =
      some (s.coeffs.jacobian ξ, s.coeffs.det ξ) := rfl

theorem newtonLoopCall_zero (x ξ : Vec3) (s : TrilinearMappingState) :
    newtonLoopCall x 0 ξ s = (.error .nonConvergence, s) := rfl

theorem newtonLoopCall_succ (x : Vec3) (k : Nat) (ξ : Vec3)
    (s : TrilinearMappingState) :
    newtonLoopCall x (k + 1) ξ s =
      match s.jacobianInverseCall ξ with
      | (.error e, s1) => (.error e, s1)
      | (.ok m, s1) =>
        let ξ' := ξ - m.mulVec (s1.coeffs.map2world ξ - x)
        if (s1.coeffs.map2world ξ' - x).sqNorm <
            newtonTolerance * newtonTolerance then
          (.ok ξ', s1)
        else
          newtonLoopCall x k ξ' s1 := rfl

/-- Once the Jacobian slot of the cache is filled, every further Newton
iteration keeps it filled. -/
theorem newtonLoopCall_cache_preserved (x : Vec3) :
    ∀ (k : Nat) (ξ : Vec3) (s : TrilinearMappingState),
      s.cache.cachedDf.isSome →
        ((newtonLoopCall x k ξ s).2).cache.cachedDf.isSome := by
  intro k
  induction k with
  | zero =>
    intro ξ s h
    rw [newtonLoopCall_zero]
    exact h
  | succ k ih =>
    intro ξ s h
    rw [newtonLoopCall_succ]
    split
    · next e s1 heq =>
      have h2 := congrArg Prod.snd heq
      simp only at h2
      rw [← h2, jacobianInverseCall_writes]
      rfl
    · next m s1 heq =>
      have h2 := congrArg Prod.snd heq
      simp only at h2
      dsimp only
      split
      · rw [← h2, jacobianInverseCall_writes]
        rfl
      · apply ih
        rw [← h2, jacobianInverseCall_writes]
        rfl

/-- The first Newton iteration of a live `world2map` call fills the Jacobian
cache slot, whatever it held before. -/
theorem newtonLoopCall_cache_written (x : Vec3) (k : Nat) (ξ : Vec3)
    (s : TrilinearMappingState) :
    ((newtonLoopCall x (k + 1) ξ s).2).cache.cachedDf.isSome := by
  rw [newtonLoopCall_succ]
  split
  · next e s1 heq =>
    have h2 := congrArg Prod.snd heq
    simp only at h2
    rw [← h2, jacobianInverseCall_writes]
    rfl
  · next m s1 heq =>
    have h2 := congrArg Prod.snd heq
    simp only at h2
    dsimp only
    split
    · rw [← h2, jacobianInverseCall_writes]
      rfl
    · apply newtonLoopCall_cache_preserved
      rw [← h2, jacobianInverseCall_writes]
      rfl

/-- C9 (amended): only `TrilinearMapping` carries the mutable per-evaluation
cache.  On a freshly evaluated instance, the non-const queries `det`,
`jacobianInverse` and `world2map` genuinely write cached Jacobian state into
the object, while the const `TrilinearMapping::map2world` leaves the object
untouched; and `BilinearSurfaceMapping`'s queries `map2world` and `normal`
are const member functions of a class without mutable members, so they leave
their object untouched as well — that class carries no per-evaluation
cache. -/
theorem mutable_cache_profile (s : TrilinearMappingState) (ξ x : Vec3)
    (b : BilinearSurfaceMappingState) (η : Vec2)
    (h : s.cache.cachedDf = none) :
    (s.detCall ξ).2.cache.cachedDf ≠ s.cache.cachedDf ∧
    (s.jacobianInverseCall ξ).2.cache.cachedDf ≠ s.cache.cachedDf ∧
    (s.world2mapCall x).2.cache.cachedDf ≠ s.cache.cachedDf ∧
    (s.map2worldCall ξ).2 = s ∧
    (b.map2worldCall η).2 = b ∧
    (b.normalCall η).2 = b := by
  refine ⟨?_, ?_, ?_, rfl, rfl, rfl⟩
  · rw [h]
    show some (s.coeffs.jacobian ξ, s.coeffs.det ξ) ≠ none
    simp
  · rw [h, jacobianInverseCall_writes]
    simp
  · rw [h]
    have hw : ((s.world2mapCall x).2).cache.cachedDf.isSome := by
      show ((newtonLoopCall x newtonCap ⟨1/2, 1/2, 1/2⟩ s).2).cache.cachedDf.isSome
      rw [newtonCap_succ]
      exact newtonLoopCall_cache_written x 19 ⟨1/2, 1/2, 1/2⟩ s
    exact Option.isSome_iff_ne_none.mp hw

/-- Witness for C9 (amended) on a freshly constructed unit-cube object and a
freshly constructed surface patch. -/
theorem mutable_cache_profile_witness :
    (freshUnitCubeState.detCall ⟨0, 0, 0⟩).2.cache.cachedDf ≠
      freshUnitCubeState.cache.cachedDf ∧
    (freshUnitCubeState.jacobianInverseCall ⟨0, 0, 0⟩).2.cache.cachedDf ≠
      freshUnitCubeState.cache.cachedDf ∧
    (freshUnitCubeState.world2mapCall ⟨1/4, 1/4, 1/4⟩).2.cache.cachedDf ≠
      freshUnitCubeState.cache.cachedDf ∧
    (freshUnitCubeState.map2worldCall ⟨0, 0, 0⟩).2 = freshUnitCubeState ∧
    (freshPatchState.map2worldCall ⟨1/3, 1/3⟩).2 = freshPatchState ∧
    (freshPatchState.normalCall ⟨1/3, 1/3⟩).2 = freshPatchState := by
  have h := mutable_cache_profile freshUnitCubeState ⟨0, 0, 0⟩
    ⟨1/4, 1/4, 1/4⟩ freshPatchState ⟨1/3, 1/3⟩ rfl
  exact ⟨h.1, h.2.1, h.2.2.1, h.2.2.2.1, h.2.2.2.2.1, h.2.2.2.2.2⟩

/-- Counterexample to C9 as stated: the claim asserts that for
`BilinearSurfaceMapping` too, some query operation (`map2world`/`normal`)
writes cached evaluation state into the instance.  But the header (in
`src/`) declares both queries `const` on a class whose only data are the
corner references and the construction-time arrays `_b` and `_n`, so on a
concrete patch object both queries return the object entirely unchanged —
no evaluation state is written, and the class is not single-point or
non-reentrant. -/
theorem bilinear_queries_mutate_nothing :
    (freshPatchState.map2worldCall ⟨1/3, 1/3⟩).2 = freshPatchState ∧
    (freshPatchState.normalCall ⟨1/3, 1/3⟩).2 = freshPatchState :=
  ⟨rfl, rfl⟩
